import Mathlib

set_option maxHeartbeats 1000000

/-!
Verification of the template-formatter core logic.

Strings are modelled as lists of characters.  The two source functions are
`extract_variables` (scan the template for variable placeholders with the
regular expression pattern double-open-brace, one or more characters other
than a close brace, double-close-brace, collecting the stripped inner texts
into a set) and `format_template` (sequentially replace, for each mapping
entry, every occurrence of the literal placeholder rebuilt from the key by
the value).  The scanning loops are written with an explicit fuel argument
so that they are structurally recursive and compute by evaluation; the fuel
is always instantiated with the length of the string being scanned, which
is enough since every step consumes at least one character.
-/

/-- Predicate for the ASCII whitespace characters removed by the Python
string strip method. -/
def pyIsSpace (c : Char) : Bool :=
  c = ' ' || c = '\t' || c = '\n' || c = '\r' || c = '\x0b' || c = '\x0c'

/-- Embedding of the Python strip method: remove leading and trailing
whitespace from a string. -/
def pyStrip (l : List Char) : List Char :=
  ((l.dropWhile pyIsSpace).reverse.dropWhile pyIsSpace).reverse

/-- Worker for the scan performed by re.findall with the placeholder
pattern: at each position, if the next two characters are open braces, the
greedy run of non-close-brace characters after them is taken; if the run is
nonempty and followed by two close braces it is a match and the scan
resumes after the match, otherwise the scan moves one character forward. -/
def findMatchesAux : List Char → Nat → List (List Char)
  | _, 0 => []
  | [], _ + 1 => []
  | [_], _ + 1 => []
  | c1 :: c2 :: rest2, fuel + 1 =>
    if c1 = '{' ∧ c2 = '{' then
      let inner := rest2.takeWhile (fun d => d ≠ '}')
      let after := rest2.dropWhile (fun d => d ≠ '}')
      if inner ≠ [] ∧ after.get? 0 = some '}' ∧ after.get? 1 = some '}' then
        inner :: findMatchesAux (after.drop 2) fuel
      else
        findMatchesAux (c2 :: rest2) fuel
    else
      findMatchesAux (c2 :: rest2) fuel

/-- The list of inner texts of the matches of the placeholder pattern found
in the template, in scanning order. -/
def findMatches (s : List Char) : List (List Char) :=
  findMatchesAux s s.length

/-- Embedding of extract_variables: the set of stripped matches of the
placeholder pattern found in the template. -/
def extract_variables (template : List Char) : Finset (List Char) :=
  ((findMatches template).map pyStrip).toFinset

/-- The literal placeholder text rebuilt from a variable name, as in the
source: open brace, open brace, name, close brace, close brace. -/
def mkPlaceholder (name : List Char) : List Char :=
  '{' :: '{' :: (name ++ ['}', '}'])

/-- Worker for the Python replace method with a nonempty pattern
(head p, tail ps): scan left to right, replacing each leftmost
non-overlapping occurrence of the pattern by the replacement. -/
def replaceLoopAux (p : Char) (ps rep : List Char) : List Char → Nat → List Char
  | _, 0 => []
  | [], _ + 1 => []
  | c :: rest, fuel + 1 =>
    if (p :: ps).isPrefixOf (c :: rest) then
      rep ++ replaceLoopAux p ps rep (rest.drop ps.length) fuel
    else
      c :: replaceLoopAux p ps rep rest fuel

/-- Embedding of the Python replace method.  With an empty pattern the
replacement is inserted before every character and at the end, as in
Python; the placeholder pattern used by the renderer is never empty. -/
def pyReplace (s pat rep : List Char) : List Char :=
  match pat with
  | [] => rep ++ (s.map (fun c => c :: rep)).flatten
  | p :: ps => replaceLoopAux p ps rep s s.length

/-- Embedding of format_template: fold over the mapping entries in
iteration order, replacing every occurrence of the literal placeholder of
each key by its value. -/
def format_template (template_text : List Char)
    (variables_dict : List (List Char × List Char)) : List Char :=
  variables_dict.foldl
    (fun formatted kv => pyReplace formatted (mkPlaceholder kv.1) kv.2)
    template_text

example : findMatches ("Hello ".data ++ mkPlaceholder "name".data ++ ", go to ".data
    ++ mkPlaceholder "place".data ++ ".".data) = ["name".data, "place".data] := by decide

example : findMatches ('{' :: '{' :: 'a' :: '{' :: '{' :: 'b' :: '}' :: '}' :: []) =
    [['a', '{', '{', 'b']] := by decide

example : findMatches ('{' :: '{' :: 'a' :: '}' :: 'b' :: '}' :: '}' :: []) = [] := by decide

example : findMatches ('{' :: '{' :: '}' :: '}' :: []) = [] := by decide

example : extract_variables (mkPlaceholder (' ' :: 'a' :: ' ' :: []) ++ mkPlaceholder ['a']) =
    {['a']} := by decide

example : pyStrip (' ' :: ' ' :: 'a' :: 'b' :: ' ' :: []) = ['a', 'b'] := by decide

example : format_template ("Hi ".data ++ mkPlaceholder "name".data)
    [("name".data, "Ana".data)] = "Hi Ana".data := by decide

example : format_template ("Hi ".data ++ mkPlaceholder "name".data) [] =
    "Hi ".data ++ mkPlaceholder "name".data := by decide

example : format_template (mkPlaceholder ['a'])
    [(['a'], mkPlaceholder ['b']), (['b'], ['X'])] = ['X'] := by decide

example : pyReplace ['a', 'b'] [] ['-'] = ['-', 'a', '-', 'b', '-'] := by decide

/-! ### Basic facts about the replace loop -/

lemma mkPlaceholder_ne_nil (n : List Char) : mkPlaceholder n ≠ [] := by
  simp [mkPlaceholder]

lemma replaceLoopAux_congr (p : Char) (ps rep : List Char) :
    ∀ fuel fuel' s, s.length ≤ fuel → s.length ≤ fuel' →
      replaceLoopAux p ps rep s fuel = replaceLoopAux p ps rep s fuel'
  | 0, fuel', s, h, _ => by
    have : s = [] := List.length_eq_zero.mp (Nat.le_zero.mp h)
    subst this; cases fuel' <;> rfl
  | fuel + 1, 0, s, _, h' => by
    have : s = [] := List.length_eq_zero.mp (Nat.le_zero.mp h')
    subst this; rfl
  | fuel + 1, fuel' + 1, [], _, _ => rfl
  | fuel + 1, fuel' + 1, c :: rest, h, h' => by
    simp only [List.length_cons, Nat.add_le_add_iff_right] at h h'
    simp only [replaceLoopAux]
    split
    · have hd : (rest.drop ps.length).length ≤ rest.length := by
        rw [List.length_drop]; omega
      rw [replaceLoopAux_congr p ps rep fuel fuel' (rest.drop ps.length)
        (le_trans hd h) (le_trans hd h')]
    · rw [replaceLoopAux_congr p ps rep fuel fuel' rest h h']

lemma replaceLoopAux_no_occurrence (p : Char) (ps rep : List Char) :
    ∀ fuel s, s.length ≤ fuel → ¬ ((p :: ps) <:+: s) → replaceLoopAux p ps rep s fuel = s
  | 0, s, h, _ => by
    have : s = [] := List.length_eq_zero.mp (Nat.le_zero.mp h)
    subst this; rfl
  | fuel + 1, [], _, _ => rfl
  | fuel + 1, c :: rest, h, hin => by
    simp only [List.length_cons, Nat.add_le_add_iff_right] at h
    simp only [replaceLoopAux]
    split
    · rename_i hpre
      rw [ List.isPrefixOf_iff_prefix] at hpre
      exact absurd hpre.isInfix hin
    · rw [replaceLoopAux_no_occurrence p ps rep fuel rest h
        (fun hi => hin (List.infix_cons hi))]

/-- If a nonempty pattern does not occur in the string, replace returns the
string unchanged. -/
lemma pyReplace_eq_self {pat s rep : List Char} (hne : pat ≠ [])
    (h : ¬ (pat <:+: s)) : pyReplace s pat rep = s := by
  match pat, hne with
  | p :: ps, _ => exact replaceLoopAux_no_occurrence p ps rep s.length s le_rfl h

/-- If no occurrence of the pattern starts inside the prefix a, the replace
scan copies a verbatim and continues on the remainder. -/
lemma pyReplace_append_of_no_early (p : Char) (ps rep : List Char) :
    ∀ a X : List Char,
      (∀ x y, a ++ X = x ++ (p :: ps) ++ y → a.length ≤ x.length) →
      pyReplace (a ++ X) (p :: ps) rep = a ++ pyReplace X (p :: ps) rep
  | [], X, _ => by simp
  | c :: a', X, h => by
    have hnp : ¬ ((p :: ps).isPrefixOf (c :: (a' ++ X)) = true) := by
      intro hpre
      rw [ List.isPrefixOf_iff_prefix] at hpre
      obtain ⟨t, ht⟩ := hpre
      have := h [] t (by simpa using ht.symm)
      simp at this
    have h' : ∀ x y, a' ++ X = x ++ (p :: ps) ++ y → a'.length ≤ x.length := by
      intro x y hxy
      have := h (c :: x) y (by simp [hxy])
      simpa using this
    show replaceLoopAux p ps rep (c :: (a' ++ X)) ((a' ++ X).length + 1) =
      (c :: a') ++ pyReplace X (p :: ps) rep
    simp only [replaceLoopAux, if_neg hnp]
    show c :: pyReplace (a' ++ X) (p :: ps) rep = _
    rw [pyReplace_append_of_no_early p ps rep a' X h']
    simp

/-- The replace scan substitutes a pattern occurrence sitting at the head of
the string and continues after it. -/
lemma pyReplace_head_match (p : Char) (ps rep X : List Char) :
    pyReplace ((p :: ps) ++ X) (p :: ps) rep = rep ++ pyReplace X (p :: ps) rep := by
  have hp : (p :: ps).isPrefixOf (p :: (ps ++ X)) = true := by
    rw [ List.isPrefixOf_iff_prefix]; exact ⟨X, by simp⟩
  show replaceLoopAux p ps rep (p :: (ps ++ X)) ((ps ++ X).length + 1) = _
  simp only [replaceLoopAux, if_pos hp]
  rw [List.drop_left]
  congr 1
  exact replaceLoopAux_congr p ps rep _ _ X (by simp) le_rfl

/-- The replace scan substitutes the leftmost occurrence of the pattern and
continues after it. -/
lemma pyReplace_first_occ (p : Char) (ps rep a b : List Char)
    (h : ∀ x y, a ++ ((p :: ps) ++ b) = x ++ (p :: ps) ++ y → a.length ≤ x.length) :
    pyReplace (a ++ ((p :: ps) ++ b)) (p :: ps) rep =
      a ++ rep ++ pyReplace b (p :: ps) rep := by
  rw [pyReplace_append_of_no_early p ps rep a ((p :: ps) ++ b) h, pyReplace_head_match]
  simp

/-! ### The placeholder pattern, declaratively -/

/-- The placeholder pattern anchored at position i with closing braces at
positions j and j plus one: two open braces at i, a nonempty run of
characters other than a close brace, and then two close braces.  Because
the run may not contain a close brace, j is necessarily the first close
brace after i, which is exactly the greedy semantics of the regex. -/
def patternAt (s : List Char) (i j : Nat) : Prop :=
  s.get? i = some '{' ∧ s.get? (i + 1) = some '{' ∧ i + 2 < j ∧
  (∀ m, m < j → i + 2 ≤ m → s.get? m ≠ some '}' ∧ s.get? m ≠ none) ∧
  s.get? j = some '}' ∧ s.get? (j + 1) = some '}'

instance (s : List Char) (i j : Nat) : Decidable (patternAt s i j) := by
  unfold patternAt; infer_instance

/-- The inner text of a pattern match anchored at i with closing brace
at j. -/
def innerAt (s : List Char) (i j : Nat) : List Char :=
  (s.drop (i + 2)).take (j - (i + 2))

example : patternAt ('{' :: '{' :: 'a' :: '}' :: '}' :: []) 0 3 := by decide

example : ¬ patternAt ('{' :: '{' :: '}' :: '}' :: []) 0 2 := by decide

example : innerAt ('{' :: '{' :: 'a' :: '}' :: '}' :: []) 0 3 = ['a'] := by decide

/-! ### Quick claims -/

/-- Claim C3, counterexample: the body is exactly one placeholder whose
inner text is space a space, so its extracted name is a; the mapping has no
entry for a, yet rendering with the mapping whose single key is the
untrimmed inner text replaces the occurrence, so the placeholder does not
appear unchanged in the output. -/
theorem format_template_unmatched_cex :
    pyStrip (' ' :: 'a' :: ' ' :: []) = ['a'] ∧
    ['a'] ∈ extract_variables (mkPlaceholder (' ' :: 'a' :: ' ' :: [])) ∧
    (∀ kv ∈ [((' ' :: 'a' :: ' ' :: []), ['Q'])], kv.1 ≠ ['a']) ∧
    format_template (mkPlaceholder (' ' :: 'a' :: ' ' :: []))
      [((' ' :: 'a' :: ' ' :: []), ['Q'])] = ['Q'] ∧
    ¬ (mkPlaceholder (' ' :: 'a' :: ' ' :: []) <:+: ['Q']) := by decide

/-- Claim C3, amended: if no key of the mapping has its literal placeholder
occurring in the body, the body is returned entirely unchanged, so in
particular unmatched placeholders are left intact and no missing-variable
error is raised; rendering the body "Hi" followed by the name placeholder
with an empty mapping returns it unchanged. -/
theorem format_template_preserves_body
    (body : List Char) (dict : List (List Char × List Char))
    (h : ∀ kv ∈ dict, ¬ (mkPlaceholder kv.1 <:+: body)) :
    format_template body dict = body := by
  induction dict with
  | nil => rfl
  | cons kv rest ih =>
    show List.foldl _ (pyReplace body (mkPlaceholder kv.1) kv.2) rest = body
    rw [pyReplace_eq_self (mkPlaceholder_ne_nil kv.1) (h kv (by simp))]
    exact ih (fun kv' hkv' => h kv' (by simp [hkv']))

/-- Witness for the amended claim C3: rendering "Hi" plus the name
placeholder with an empty mapping, and with a mapping for an unrelated
key, returns the body unchanged. -/
theorem format_template_preserves_body_witness :
    format_template ("Hi ".data ++ mkPlaceholder "name".data) [] =
      "Hi ".data ++ mkPlaceholder "name".data ∧
    format_template ("Hi ".data ++ mkPlaceholder "name".data)
        [("other".data, "v".data)] =
      "Hi ".data ++ mkPlaceholder "name".data :=
  ⟨format_template_preserves_body _ [] (by decide),
   format_template_preserves_body _ [("other".data, "v".data)] (by decide)⟩

/-- Claim C4: a placeholder written with whitespace inside the braces is
extracted under its trimmed name, but rendering with a mapping for that
trimmed name leaves the occurrence unchanged, because the renderer only
replaces the whitespace-free literal placeholder. -/
theorem extract_render_mismatch :
    extract_variables (mkPlaceholder (' ' :: ("name".data ++ [' ']))) = {"name".data} ∧
    format_template (mkPlaceholder (' ' :: ("name".data ++ [' '])))
        [("name".data, "Ana".data)] =
      mkPlaceholder (' ' :: ("name".data ++ [' '])) := by decide

/-- Claim C6: rendering is sequential, so a placeholder-shaped token
introduced by a substituted value is replaced by a later-processed entry:
rendering the a placeholder with the mapping a to the b placeholder
followed by b to X produces X, not the b placeholder. -/
theorem format_template_rescans_values :
    format_template (mkPlaceholder ['a'])
        [(['a'], mkPlaceholder ['b']), (['b'], ['X'])] = ['X'] ∧
    mkPlaceholder ['b'] ≠ ['X'] := by decide

/-- Claim C7: inner texts are stripped before being added to the result
set, so a spaced and an unspaced placeholder with the same name de-duplicate
to the single trimmed name, and an all-whitespace placeholder yields the
empty string as a variable name. -/
theorem extract_trims_and_dedups :
    extract_variables (mkPlaceholder (' ' :: 'a' :: ' ' :: []) ++ mkPlaceholder ['a']) =
      {['a']} ∧
    extract_variables (mkPlaceholder (' ' :: ' ' :: ' ' :: [])) = {([] : List Char)} := by
  decide

/-- Claim C9: rendering with an empty variable mapping is the identity on
bodies without placeholders. -/
theorem format_template_empty_dict (s : List Char)
    (h : ∀ i, i < s.length → ∀ j, j < s.length → ¬ patternAt s i j) :
    format_template s [] = s := rfl

/-- Witness for claim C9 at a concrete placeholder-free body. -/
theorem format_template_empty_dict_witness :
    format_template "Hello".data [] = "Hello".data :=
  format_template_empty_dict "Hello".data (by decide)

/-- Claim C10: both operations are total: every string yields a defined
result, the empty string included, and rendering never fails on any
mapping. -/
theorem extract_format_total :
    extract_variables [] = ∅ ∧
    (∀ s, ∃ vs, extract_variables s = vs) ∧
    (∀ d, format_template [] d = []) ∧
    (∀ s d, ∃ t, format_template s d = t) := by
  refine ⟨rfl, fun s => ⟨_, rfl⟩, ?_, fun s d => ⟨_, rfl⟩⟩
  intro d
  induction d with
  | nil => rfl
  | cons kv rest ih =>
    show List.foldl _ (pyReplace [] (mkPlaceholder kv.1) kv.2) rest = []
    have : pyReplace [] (mkPlaceholder kv.1) kv.2 = [] := by
      rw [pyReplace_eq_self (mkPlaceholder_ne_nil kv.1)]
      simp [List.IsInfix, mkPlaceholder]
    rw [this]
    exact ih

/-! ### Claim C2: every occurrence is replaced -/

/-- Relation describing a complete replacement pass: the second string is
the first with every leftmost non-overlapping occurrence of the pattern
substituted by the replacement.  The step constructor requires that no
occurrence of the pattern starts before the one being substituted. -/
inductive ReplacesEvery (pat rep : List Char) : List Char → List Char → Prop
  | noOcc (s : List Char) : ¬ (pat <:+: s) → ReplacesEvery pat rep s s
  | step (a b t : List Char) :
      (∀ i, i < a.length → ¬ (pat <+: ((a ++ pat ++ b).drop i))) →
      ReplacesEvery pat rep b t →
      ReplacesEvery pat rep (a ++ pat ++ b) (a ++ rep ++ t)

lemma no_early_of_no_prefix_drop (pat a b : List Char)
    (h : ∀ i, i < a.length → ¬ (pat <+: ((a ++ pat ++ b).drop i))) :
    ∀ x y, a ++ (pat ++ b) = x ++ pat ++ y → a.length ≤ x.length := by
  intro x y hxy
  by_contra hlt
  push_neg at hlt
  apply h x.length hlt
  have e : (a ++ pat ++ b).drop x.length = pat ++ y := by
    rw [List.append_assoc, hxy, List.append_assoc, List.drop_left]
  rw [e]
  exact List.prefix_append _ _

lemma pyReplace_first_occ' (pat rep a b : List Char) (hne : pat ≠ [])
    (h : ∀ x y, a ++ (pat ++ b) = x ++ pat ++ y → a.length ≤ x.length) :
    pyReplace (a ++ (pat ++ b)) pat rep = a ++ rep ++ pyReplace b pat rep := by
  match pat, hne with
  | p :: ps, _ => exact pyReplace_first_occ p ps rep a b h

/-- Claim C2: rendering substitutes, for each mapping entry, every
occurrence of the literal placeholder rebuilt from the key (open braces,
the key, close braces) by the value.  With a single entry the output is the
complete replacement, and processing an entry of a longer mapping performs
the complete replacement for that entry before the remaining entries are
processed. -/
theorem format_template_replaces_every (n v s t : List Char)
    (h : ReplacesEvery (mkPlaceholder n) v s t) :
    format_template s [(n, v)] = t ∧
    ∀ d, format_template s ((n, v) :: d) = format_template t d := by
  have key : pyReplace s (mkPlaceholder n) v = t := by
    induction h with
    | noOcc s hs => exact pyReplace_eq_self (mkPlaceholder_ne_nil n) hs
    | step a b t' hno hb ih =>
      have h' := no_early_of_no_prefix_drop (mkPlaceholder n) a b hno
      rw [List.append_assoc,
        pyReplace_first_occ' (mkPlaceholder n) v a b (mkPlaceholder_ne_nil n) h', ih]
  exact ⟨key, fun d => by
    show List.foldl _ (pyReplace s (mkPlaceholder n) v) d = _
    rw [key]
    rfl⟩

/-- Witness for claim C2: rendering "Hi" plus the name placeholder with the
mapping name to Ana gives "Hi Ana". -/
theorem format_template_replaces_every_witness :
    format_template ("Hi ".data ++ mkPlaceholder "name".data)
      [("name".data, "Ana".data)] = "Hi Ana".data := by
  have h : ReplacesEvery (mkPlaceholder "name".data) "Ana".data
      ("Hi ".data ++ mkPlaceholder "name".data ++ []) ("Hi ".data ++ "Ana".data ++ []) :=
    ReplacesEvery.step "Hi ".data [] [] (by decide)
      (ReplacesEvery.noOcc [] (by decide))
  have h2 := (format_template_replaces_every "name".data "Ana".data _ _ h).1
  rw [show "Hi ".data ++ mkPlaceholder "name".data ++ [] =
    "Hi ".data ++ mkPlaceholder "name".data by simp] at h2
  rw [h2]
  decide

/-! ### Claim C5: order of substitution -/

/-- A string free of both brace characters. -/
def braceFree (l : List Char) : Prop := '{' ∉ l ∧ '}' ∉ l

instance (l : List Char) : Decidable (braceFree l) := by
  unfold braceFree; infer_instance

/-- Body built from an alternating sequence of placeholders and following
text chunks: each part is a placeholder name and the text after it. -/
def assembleParts : List (List Char × List Char) → List Char
  | [] => []
  | (σ, t) :: ps => mkPlaceholder σ ++ t ++ assembleParts ps

/-- A structured template body: leading text, then alternating placeholders
and text chunks. -/
def assemble (t0 : List Char) (parts : List (List Char × List Char)) : List Char :=
  t0 ++ assembleParts parts

/-- Effect of substituting value v for key k on the structure of a body:
parts named k disappear, the value and the following text merging into the
preceding text chunk. -/
def substStruct (k v : List Char) :
    List Char → List (List Char × List Char) → List Char × List (List Char × List Char)
  | t0, [] => (t0, [])
  | t0, (σ, t) :: ps =>
    if σ = k then substStruct k v (t0 ++ v ++ t) ps
    else
      let r := substStruct k v t ps
      (t0, (σ, r.1) :: r.2)

/-- The rendering of the parts of a structured body under a mapping: each
placeholder whose name is a key becomes that key's value, the others stay
as placeholder text. -/
def renderedParts (dict : List (List Char × List Char)) :
    List (List Char × List Char) → List Char
  | [] => []
  | (σ, t) :: ps =>
    (match List.lookup σ dict with
     | some v => v
     | none => mkPlaceholder σ) ++ t ++ renderedParts dict ps

lemma lookup_cons_eq {k v : List Char} {es : List (List Char × List Char)} {σ : List Char} :
    List.lookup σ ((k, v) :: es) = if σ = k then some v else List.lookup σ es := by
  rw [List.lookup_cons]
  by_cases h : σ = k
  · simp [h]
  · have hb : (σ == k) = false := beq_eq_false_iff_ne.mpr h
    simp [hb, h]

/-- If the decomposition puts the head of a pattern strictly inside the
prefix a, then that head character is a member of a. -/
lemma head_mem_of_decomp {a X x y : List Char} {c : Char} {r : List Char}
    (h : a ++ X = x ++ (c :: r) ++ y) (hlt : x.length < a.length) : c ∈ a := by
  have h1 : (a ++ X).drop x.length = (c :: r) ++ y := by
    rw [h, List.append_assoc, List.drop_left]
  have h2 : (a ++ X).drop x.length = a.drop x.length ++ X :=
    List.drop_append_of_le_length (le_of_lt hlt)
  cases hdrop : a.drop x.length with
  | nil =>
    rw [List.drop_eq_nil_iff] at hdrop
    omega
  | cons d ds =>
    have hc : d = c := by
      rw [h2, hdrop] at h1
      simpa using congrArg List.head? h1
    have hd : d ∈ a := List.mem_of_mem_drop (hdrop ▸ List.mem_cons_self d ds)
    rwa [hc] at hd

/-- No occurrence of a placeholder starts inside a text chunk containing no
open brace. -/
lemma noEarly_of_no_open {a X k : List Char} (ha : '{' ∉ a) :
    ∀ x y, a ++ X = x ++ mkPlaceholder k ++ y → a.length ≤ x.length := by
  intro x y h
  by_contra hlt
  push_neg at hlt
  exact ha (head_mem_of_decomp (c := '{') (r := '{' :: (k ++ ['}', '}'])) h hlt)

/-- Composition of two no-early-occurrence guarantees. -/
lemma noEarly_append {pat a b X : List Char}
    (ha : ∀ x y, a ++ (b ++ X) = x ++ pat ++ y → a.length ≤ x.length)
    (hb : ∀ x y, b ++ X = x ++ pat ++ y → b.length ≤ x.length) :
    ∀ x y, (a ++ b) ++ X = x ++ pat ++ y → (a ++ b).length ≤ x.length := by
  intro x y h
  have h' : a ++ (b ++ X) = x ++ pat ++ y := by simpa [List.append_assoc] using h
  have hax := ha x y h'
  have hxtake : a = x.take a.length := by
    have := congrArg (List.take a.length) h'
    rw [List.take_left, List.append_assoc, List.take_append_of_le_length hax] at this
    exact this
  have hxsplit : x = a ++ x.drop a.length := by
    conv_lhs => rw [← List.take_append_drop a.length x, ← hxtake]
  have hcancel : b ++ X = x.drop a.length ++ pat ++ y := by
    have h2 : a ++ (b ++ X) = a ++ (x.drop a.length ++ pat ++ y) := by
      calc a ++ (b ++ X) = x ++ pat ++ y := h'
        _ = (a ++ x.drop a.length) ++ pat ++ y := by rw [← hxsplit]
        _ = a ++ (x.drop a.length ++ pat ++ y) := by simp [List.append_assoc]
    exact List.append_cancel_left h2
  have := hb (x.drop a.length) y hcancel
  have hxlen : x.length = a.length + (x.drop a.length).length := by
    conv_lhs => rw [hxsplit]
    simp
  simp only [List.length_append]
  omega

lemma append_close_inj : ∀ {σ k X y : List Char}, '}' ∉ σ → '}' ∉ k →
    σ ++ '}' :: '}' :: X = k ++ '}' :: '}' :: y → σ = k
  | [], [], _, _, _, _, _ => rfl
  | [], c :: k', X, y, _, hk, h => by
    exfalso
    have hc : '}' = c := by simpa using congrArg List.head? h
    exact hk (hc ▸ List.mem_cons_self c k')
  | c :: σ', [], X, y, hσ, _, h => by
    exfalso
    have hc : c = '}' := by simpa using congrArg List.head? h
    exact hσ (hc ▸ List.mem_cons_self c σ')
  | c :: σ', d :: k', X, y, hσ, hk, h => by
    simp only [List.cons_append, List.cons.injEq] at h
    obtain ⟨rfl, h2⟩ := h
    rw [append_close_inj (fun hm => hσ (List.mem_cons_of_mem _ hm))
      (fun hm => hk (List.mem_cons_of_mem _ hm)) h2]

/-- Character of a string at a position inside a decomposed occurrence. -/
lemma get?_decomp {s x pat y : List Char} (h : s = x ++ pat ++ y) {m : Nat}
    (hm : m < pat.length) : s.get? (x.length + m) = pat.get? m := by
  subst h
  rw [List.append_assoc, List.get?_append_right (Nat.le_add_right _ _)]
  simp only [Nat.add_sub_cancel_left]
  exact List.get?_append hm

/-- No occurrence of the placeholder of k starts strictly inside the
placeholder of a different brace-free name. -/
lemma noEarly_placeholder {σ k : List Char} (hσ : braceFree σ) (hk : braceFree k)
    (hne : σ ≠ k) (X : List Char) :
    ∀ x y, mkPlaceholder σ ++ X = x ++ mkPlaceholder k ++ y →
      (mkPlaceholder σ).length ≤ x.length := by
  intro x y h
  by_contra hcon
  push_neg at hcon
  have hlen : (mkPlaceholder σ).length = σ.length + 4 := by simp [mkPlaceholder]
  have hc0 : (mkPlaceholder σ ++ X).get? (x.length + 0) = some '{' := by
    rw [get?_decomp h (by simp [mkPlaceholder])]; rfl
  have hc1 : (mkPlaceholder σ ++ X).get? (x.length + 1) = some '{' := by
    rw [get?_decomp h (by simp [mkPlaceholder])]; rfl
  have hsform : mkPlaceholder σ ++ X = '{' :: '{' :: (σ ++ '}' :: '}' :: X) := by
    simp [mkPlaceholder]
  have hget : ∀ m, (mkPlaceholder σ ++ X).get? (m + 2) = (σ ++ '}' :: '}' :: X).get? m := by
    intro m
    rw [hsform]
    rfl
  rcases Nat.lt_or_ge x.length 2 with h2 | h2
  · have : x.length = 0 ∨ x.length = 1 := by omega
    rcases this with h0 | h1
    · have hx : x = [] := List.length_eq_zero.mp h0
      subst hx
      simp only [List.nil_append, mkPlaceholder, List.cons_append, List.cons.injEq,
        List.append_assoc, List.nil_append, true_and] at h
      exact hne (append_close_inj hσ.2 hk.2 (by simpa using h))
    · rw [h1] at hc1
      have := hget 0
      rw [show (0 : Nat) + 2 = 1 + 1 by rfl] at this
      rw [this] at hc1
      cases σ with
      | nil => simp at hc1
      | cons c σ' =>
        simp only [List.cons_append, List.get?_cons_zero, Option.some.injEq] at hc1
        exact hσ.1 (hc1 ▸ List.mem_cons_self c σ')
  · rcases Nat.lt_or_ge x.length (σ.length + 2) with h3 | h3
    · obtain ⟨m, hm⟩ : ∃ m, x.length = m + 2 := ⟨x.length - 2, by omega⟩
      rw [hm, Nat.add_zero] at hc0
      rw [hget m] at hc0
      rw [List.get?_append (by omega)] at hc0
      exact hσ.1 (List.get?_mem hc0)
    · have hp : x.length = σ.length + 2 ∨ x.length = σ.length + 3 := by omega
      rcases hp with hp | hp
      · rw [hp, Nat.add_zero, hget σ.length,
          List.get?_append_right le_rfl, Nat.sub_self] at hc0
        simp at hc0
      · rw [hp, Nat.add_zero, show σ.length + 3 = (σ.length + 1) + 2 by omega,
          hget (σ.length + 1),
          List.get?_append_right (by omega)] at hc0
        rw [show σ.length + 1 - σ.length = 1 by omega] at hc0
        simp at hc0

lemma not_infix_placeholder_of_no_open {k t0 : List Char} (h : '{' ∉ t0) :
    ¬ (mkPlaceholder k <:+: t0) := by
  rintro ⟨x, y, hxy⟩
  apply h
  rw [← hxy]
  simp [mkPlaceholder]

lemma braceFree_append {a b : List Char} (ha : braceFree a) (hb : braceFree b) :
    braceFree (a ++ b) := by
  unfold braceFree at *
  simp [List.mem_append, ha.1, ha.2, hb.1, hb.2]

lemma pyReplace_skip' (pat rep : List Char) (hne : pat ≠ []) (a X : List Char)
    (h : ∀ x y, a ++ X = x ++ pat ++ y → a.length ≤ x.length) :
    pyReplace (a ++ X) pat rep = a ++ pyReplace X pat rep := by
  match pat, hne with
  | p :: ps, _ => exact pyReplace_append_of_no_early p ps rep a X h

/-- One complete replacement pass on a structured body produces the
structurally substituted body. -/
lemma pyReplace_assembleParts (k v : List Char) (hk : braceFree k) (hv : braceFree v) :
    ∀ (parts : List (List Char × List Char)) (t0 : List Char),
      braceFree t0 →
      (∀ pr ∈ parts, braceFree pr.1 ∧ braceFree pr.2) →
      pyReplace (t0 ++ assembleParts parts) (mkPlaceholder k) v =
        (substStruct k v t0 parts).1 ++ assembleParts (substStruct k v t0 parts).2
  | [], t0, ht0, _ => by
    simp only [assembleParts, substStruct, List.append_nil]
    exact pyReplace_eq_self (mkPlaceholder_ne_nil k) (not_infix_placeholder_of_no_open ht0.1)
  | (σ, t) :: ps, t0, ht0, hparts => by
    obtain ⟨hσ, ht⟩ := hparts (σ, t) (by simp)
    have hps : ∀ pr ∈ ps, braceFree pr.1 ∧ braceFree pr.2 :=
      fun pr hpr => hparts pr (by simp [hpr])
    by_cases hσk : σ = k
    · subst hσk
      have hassoc : t0 ++ assembleParts ((σ, t) :: ps) =
          t0 ++ (mkPlaceholder σ ++ (t ++ assembleParts ps)) := by
        simp [assembleParts, List.append_assoc]
      rw [hassoc,
        pyReplace_first_occ' (mkPlaceholder σ) v t0 (t ++ assembleParts ps)
          (mkPlaceholder_ne_nil σ) (noEarly_of_no_open ht0.1),
        show substStruct σ v t0 ((σ, t) :: ps) = substStruct σ v (t0 ++ v ++ t) ps from
          by simp [substStruct],
        ← pyReplace_assembleParts σ v hk hv ps (t0 ++ v ++ t)
          (braceFree_append (braceFree_append ht0 hv) ht) hps,
        show (t0 ++ v ++ t) ++ assembleParts ps =
            (t0 ++ v) ++ (t ++ assembleParts ps) from by simp [List.append_assoc],
        pyReplace_skip' (mkPlaceholder σ) v (mkPlaceholder_ne_nil σ) (t0 ++ v)
          (t ++ assembleParts ps)
          (noEarly_of_no_open (braceFree_append ht0 hv).1)]
    · have hassoc : t0 ++ assembleParts ((σ, t) :: ps) =
          (t0 ++ mkPlaceholder σ) ++ (t ++ assembleParts ps) := by
        simp [assembleParts, List.append_assoc]
      rw [hassoc,
        pyReplace_skip' (mkPlaceholder k) v (mkPlaceholder_ne_nil k)
          (t0 ++ mkPlaceholder σ) (t ++ assembleParts ps)
          (noEarly_append (noEarly_of_no_open ht0.1)
            (noEarly_placeholder hσ hk hσk (t ++ assembleParts ps))),
        pyReplace_assembleParts k v hk hv ps t ht hps]
      simp only [substStruct, if_neg hσk]
      simp [assembleParts, List.append_assoc]

lemma substStruct_braceFree (k v : List Char) (hv : braceFree v) :
    ∀ (parts : List (List Char × List Char)) (t0 : List Char),
      braceFree t0 →
      (∀ pr ∈ parts, braceFree pr.1 ∧ braceFree pr.2) →
      braceFree (substStruct k v t0 parts).1 ∧
      (∀ pr ∈ (substStruct k v t0 parts).2, braceFree pr.1 ∧ braceFree pr.2)
  | [], t0, ht0, _ => ⟨ht0, by simp [substStruct]⟩
  | (σ, t) :: ps, t0, ht0, hparts => by
    obtain ⟨hσ, ht⟩ := hparts (σ, t) (by simp)
    have hps : ∀ pr ∈ ps, braceFree pr.1 ∧ braceFree pr.2 :=
      fun pr hpr => hparts pr (by simp [hpr])
    by_cases hσk : σ = k
    · subst hσk
      rw [show substStruct σ v t0 ((σ, t) :: ps) = substStruct σ v (t0 ++ v ++ t) ps from
        by simp [substStruct]]
      exact substStruct_braceFree σ v hv ps (t0 ++ v ++ t)
        (braceFree_append (braceFree_append ht0 hv) ht) hps
    · obtain ⟨h1, h2⟩ := substStruct_braceFree k v hv ps t ht hps
      simp only [substStruct, if_neg hσk]
      refine ⟨ht0, ?_⟩
      intro pr hpr
      rcases List.mem_cons.mp hpr with hpr | hpr
      · subst hpr; exact ⟨hσ, h1⟩
      · exact h2 pr hpr

lemma renderedParts_nil : ∀ parts, renderedParts [] parts = assembleParts parts
  | [] => rfl
  | (σ, t) :: ps => by
    simp [renderedParts, assembleParts, List.lookup, renderedParts_nil ps]

lemma renderedParts_substStruct (k v : List Char) (rest : List (List Char × List Char)) :
    ∀ (parts : List (List Char × List Char)) (t0 : List Char),
      (substStruct k v t0 parts).1 ++ renderedParts rest (substStruct k v t0 parts).2 =
        t0 ++ renderedParts ((k, v) :: rest) parts
  | [], t0 => by simp [substStruct, renderedParts]
  | (σ, t) :: ps, t0 => by
    by_cases hσk : σ = k
    · subst hσk
      rw [show substStruct σ v t0 ((σ, t) :: ps) = substStruct σ v (t0 ++ v ++ t) ps from
        by simp [substStruct]]
      rw [renderedParts_substStruct σ v rest ps (t0 ++ v ++ t)]
      simp only [renderedParts, lookup_cons_eq, if_pos rfl]
      simp [List.append_assoc]
    · have ih := renderedParts_substStruct k v rest ps t
      simp only [substStruct, if_neg hσk]
      simp only [renderedParts, lookup_cons_eq, if_neg hσk]
      simp only [List.append_assoc]
      rw [ih]

/-- Closed form of rendering on a structured body: each placeholder whose
name is a key is replaced by that key's value, the others remain, and the
result only depends on the mapping through lookup. -/
lemma format_template_structured :
    ∀ (dict : List (List Char × List Char)) (t0 : List Char)
      (parts : List (List Char × List Char)),
      braceFree t0 →
      (∀ pr ∈ parts, braceFree pr.1 ∧ braceFree pr.2) →
      (∀ kv ∈ dict, braceFree kv.1 ∧ braceFree kv.2) →
      format_template (t0 ++ assembleParts parts) dict = t0 ++ renderedParts dict parts
  | [], t0, parts, _, _, _ => by
    show t0 ++ assembleParts parts = t0 ++ renderedParts [] parts
    rw [renderedParts_nil]
  | (k, v) :: rest, t0, parts, ht0, hparts, hdict => by
    obtain ⟨hk, hv⟩ := hdict (k, v) (by simp)
    have hrest : ∀ kv ∈ rest, braceFree kv.1 ∧ braceFree kv.2 :=
      fun kv h => hdict kv (by simp [h])
    show format_template (pyReplace (t0 ++ assembleParts parts) (mkPlaceholder k) v) rest =
      t0 ++ renderedParts ((k, v) :: rest) parts
    rw [pyReplace_assembleParts k v hk hv parts t0 ht0 hparts]
    obtain ⟨hs1, hs2⟩ := substStruct_braceFree k v hv parts t0 ht0 hparts
    rw [format_template_structured rest _ _ hs1 hs2 hrest]
    exact renderedParts_substStruct k v rest parts t0

/-- Lookup in an association list with distinct keys is invariant under
permutation of the entries. -/
lemma lookup_perm_of_nodup_keys {dict dict' : List (List Char × List Char)}
    (h : dict.Perm dict') (nd : (dict.map Prod.fst).Nodup) (σ : List Char) :
    List.lookup σ dict = List.lookup σ dict' := by
  revert nd
  induction h with
  | nil => intro _; rfl
  | cons x l ih =>
    intro nd
    rcases x with ⟨a, b⟩
    rw [lookup_cons_eq, lookup_cons_eq]
    by_cases hσ : σ = a
    · simp [hσ]
    · simp only [if_neg hσ]
      apply ih
      rw [List.map_cons, List.nodup_cons] at nd
      exact nd.2
  | swap x y l =>
    intro nd
    rcases x with ⟨a, b⟩
    rcases y with ⟨c, d⟩
    have hac : c ≠ a := by
      rw [List.map_cons, List.map_cons, List.nodup_cons] at nd
      have := nd.1
      simp only [List.mem_cons, not_or] at this
      exact this.1
    rw [lookup_cons_eq, lookup_cons_eq, lookup_cons_eq, lookup_cons_eq]
    by_cases hσc : σ = c <;> by_cases hσa : σ = a
    · exact absurd (hσc.symm.trans hσa) hac
    · simp [hσc, hσa, hac, Ne.symm hac]
    · simp [hσc, hσa, hac, Ne.symm hac]
    · simp [hσc, hσa, hac, Ne.symm hac]
  | trans h12 h23 ih1 ih2 =>
    intro nd
    rw [ih1 nd, ih2 (((h12.map Prod.fst).nodup_iff).mp nd)]

lemma renderedParts_congr {dict dict' : List (List Char × List Char)}
    (h : ∀ σ, List.lookup σ dict = List.lookup σ dict') :
    ∀ parts, renderedParts dict parts = renderedParts dict' parts
  | [] => rfl
  | (σ, t) :: ps => by
    simp only [renderedParts, h σ, renderedParts_congr h ps]

/-- Claim C5, counterexample: with body the placeholder of the name
x-open-open-a-close-close-y (a nested placeholder shape), the mapping
entries a to m and xmy to Q satisfy the stated condition (no value contains
any key's placeholder text), yet the two iteration orders of the same
mapping give different results. -/
theorem format_template_order_dependent_cex :
    List.Perm [((['a'] : List Char), (['m'] : List Char)), (['x', 'm', 'y'], ['Q'])]
      [(['x', 'm', 'y'], ['Q']), (['a'], ['m'])] ∧
    (List.map Prod.fst
      [((['a'] : List Char), (['m'] : List Char)), (['x', 'm', 'y'], ['Q'])]).Nodup ∧
    (∀ kv ∈ [((['a'] : List Char), (['m'] : List Char)), (['x', 'm', 'y'], ['Q'])],
      ∀ kv' ∈ [((['a'] : List Char), (['m'] : List Char)), (['x', 'm', 'y'], ['Q'])],
        ¬ (mkPlaceholder kv'.1 <:+: kv.2)) ∧
    format_template (mkPlaceholder ('x' :: (mkPlaceholder ['a'] ++ ['y'])))
        [((['a'] : List Char), (['m'] : List Char)), (['x', 'm', 'y'], ['Q'])] ≠
      format_template (mkPlaceholder ('x' :: (mkPlaceholder ['a'] ++ ['y'])))
        [(['x', 'm', 'y'], ['Q']), (['a'], ['m'])] := by decide

/-- Claim C5, amended: on a body assembled from alternating brace-free text
chunks and whole placeholders with brace-free names, rendering with a
mapping whose keys are distinct and brace-free and whose values are
brace-free gives the same result for every iteration order of the
mapping. -/
theorem format_template_order_independent
    (t0 : List Char) (parts dict dict' : List (List Char × List Char))
    (ht0 : braceFree t0)
    (hparts : ∀ pr ∈ parts, braceFree pr.1 ∧ braceFree pr.2)
    (hdict : ∀ kv ∈ dict, braceFree kv.1 ∧ braceFree kv.2)
    (hnd : (dict.map Prod.fst).Nodup)
    (hperm : dict.Perm dict') :
    format_template (assemble t0 parts) dict =
      format_template (assemble t0 parts) dict' := by
  have hdict' : ∀ kv ∈ dict', braceFree kv.1 ∧ braceFree kv.2 :=
    fun kv h => hdict kv (hperm.mem_iff.mpr h)
  simp only [assemble]
  rw [format_template_structured dict t0 parts ht0 hparts hdict,
    format_template_structured dict' t0 parts ht0 hparts hdict',
    renderedParts_congr (lookup_perm_of_nodup_keys hperm hnd) parts]

/-- Witness for the amended claim C5 at a concrete structured body and a
two-entry mapping in both orders. -/
theorem format_template_order_independent_witness :
    format_template (assemble "Hi ".data [("name".data, "!".data)])
        [("name".data, "Ana".data), ("x".data, "y".data)] =
      format_template (assemble "Hi ".data [("name".data, "!".data)])
        [("x".data, "y".data), ("name".data, "Ana".data)] :=
  format_template_order_independent "Hi ".data [("name".data, "!".data)]
    [("name".data, "Ana".data), ("x".data, "y".data)]
    [("x".data, "y".data), ("name".data, "Ana".data)]
    (by decide) (by decide) (by decide) (by decide) (by decide)

/-! ### Claim C1: extraction versus the declarative pattern -/

/-- A maximal pattern match: the pattern matches at i with closing brace j,
and no longer run (earlier start) matches with the same closing brace. -/
def selectedAt (s : List Char) (i j : Nat) : Prop :=
  patternAt s i j ∧ ∀ i', i' < i → ¬ patternAt s i' j

lemma patternAt_cons_shift (c : Char) (s : List Char) (i j : Nat) :
    patternAt (c :: s) (i + 1) (j + 1) ↔ patternAt s i j := by
  unfold patternAt
  constructor
  · rintro ⟨h1, h2, h3, h4, h5, h6⟩
    refine ⟨by simpa using h1, by simpa using h2, by omega, ?_, by simpa using h5,
      by simpa using h6⟩
    intro m hm1 hm2
    have := h4 (m + 1) (by omega) (by omega)
    simpa using this
  · rintro ⟨h1, h2, h3, h4, h5, h6⟩
    refine ⟨by simpa using h1, by simpa using h2, by omega, ?_, by simpa using h5,
      by simpa using h6⟩
    intro m hm1 hm2
    obtain ⟨m', rfl⟩ : ∃ m', m = m' + 1 := ⟨m - 1, by omega⟩
    have := h4 m' (by omega) (by omega)
    simpa using this

lemma patternAt_append_shift (a : List Char) (s : List Char) (i j : Nat) :
    patternAt (a ++ s) (a.length + i) (a.length + j) ↔ patternAt s i j := by
  induction a with
  | nil => simp
  | cons c a' ih =>
    rw [List.cons_append, List.length_cons,
      show a'.length + 1 + i = (a'.length + i) + 1 by omega,
      show a'.length + 1 + j = (a'.length + j) + 1 by omega,
      patternAt_cons_shift, ih]

lemma innerAt_cons_shift (c : Char) (s : List Char) (i j : Nat) :
    innerAt (c :: s) (i + 1) (j + 1) = innerAt s i j := by
  unfold innerAt
  rw [show i + 1 + 2 = (i + 2) + 1 by omega, List.drop_succ_cons]
  congr 1
  omega

lemma innerAt_append_shift (a : List Char) (s : List Char) (i j : Nat) :
    innerAt (a ++ s) (a.length + i) (a.length + j) = innerAt s i j := by
  induction a with
  | nil => simp
  | cons c a' ih =>
    rw [List.cons_append, List.length_cons,
      show a'.length + 1 + i = (a'.length + i) + 1 by omega,
      show a'.length + 1 + j = (a'.length + j) + 1 by omega,
      innerAt_cons_shift, ih]

lemma patternAt_lt {s : List Char} {i j : Nat} (h : patternAt s i j) :
    i + 2 < j ∧ j + 1 < s.length := by
  obtain ⟨_, _, h3, _, _, h6⟩ := h
  refine ⟨h3, ?_⟩
  by_contra hc
  push_neg at hc
  rw [List.get?_eq_none.mpr hc] at h6
  exact Option.noConfusion h6

lemma patternAt_nil (i j : Nat) : ¬ patternAt [] i j := by
  intro h
  have := (patternAt_lt h).2
  simp at this

lemma patternAt_single (c : Char) (i j : Nat) : ¬ patternAt [c] i j := by
  intro h
  have h1 := (patternAt_lt h).1
  have h2 := (patternAt_lt h).2
  simp only [List.length_cons, List.length_nil] at h2
  omega

lemma not_patternAt_zero {s : List Char}
    (h : ¬ (s.get? 0 = some '{' ∧ s.get? 1 = some '{')) :
    ∀ j, ¬ patternAt s 0 j := by
  intro j hp
  exact h ⟨hp.1, by simpa using hp.2.1⟩

lemma selected_tail_iff {c : Char} {t : List Char}
    (h0 : ∀ j, ¬ patternAt (c :: t) 0 j) (w : List Char) :
    (∃ i j, selectedAt (c :: t) i j ∧ innerAt (c :: t) i j = w) ↔
      ∃ i j, selectedAt t i j ∧ innerAt t i j = w := by
  constructor
  · rintro ⟨i, j, ⟨hp, hmax⟩, hw⟩
    obtain ⟨i', rfl⟩ : ∃ i', i = i' + 1 := by
      cases i with
      | zero => exact absurd hp (h0 j)
      | succ i' => exact ⟨i', rfl⟩
    obtain ⟨j', rfl⟩ : ∃ j', j = j' + 1 := by
      have := (patternAt_lt hp).1
      cases j with
      | zero => omega
      | succ j' => exact ⟨j', rfl⟩
    refine ⟨i', j', ⟨(patternAt_cons_shift c t i' j').mp hp, ?_⟩,
      by rwa [innerAt_cons_shift] at hw⟩
    intro i'' hi'' hp''
    exact hmax (i'' + 1) (by omega) ((patternAt_cons_shift c t i'' j').mpr hp'')
  · rintro ⟨i, j, ⟨hp, hmax⟩, hw⟩
    refine ⟨i + 1, j + 1, ⟨(patternAt_cons_shift c t i j).mpr hp, ?_⟩,
      by rwa [innerAt_cons_shift]⟩
    intro i'' hi'' hp''
    cases i'' with
    | zero => exact h0 (j + 1) hp''
    | succ i₀ =>
      exact hmax i₀ (by omega) ((patternAt_cons_shift c t i₀ j).mp hp'')

lemma takeWhile_eq_take_of (p : Char → Bool) :
    ∀ (l : List Char) (kk : Nat),
      (∀ m, m < kk → ∃ ch, l.get? m = some ch ∧ p ch = true) →
      (∃ ch, l.get? kk = some ch ∧ p ch = false) →
      l.takeWhile p = l.take kk ∧ l.dropWhile p = l.drop kk
  | l, 0, _, hlast => by
    obtain ⟨ch, hch, hpch⟩ := hlast
    cases l with
    | nil => simp at hch
    | cons a l' =>
      simp only [List.get?_cons_zero, Option.some.injEq] at hch
      subst hch
      simp [List.takeWhile_cons, List.dropWhile_cons, hpch]
  | l, kk + 1, hall, hlast => by
    cases l with
    | nil =>
      obtain ⟨ch, hch, _⟩ := hlast
      simp at hch
    | cons a l' =>
      obtain ⟨ch, hch, hp⟩ := hall 0 (by omega)
      simp only [List.get?_cons_zero, Option.some.injEq] at hch
      subst hch
      have ih := takeWhile_eq_take_of p l' kk
        (fun m hm => by
          obtain ⟨ch2, h1, h2⟩ := hall (m + 1) (by omega)
          exact ⟨ch2, by simpa using h1, h2⟩)
        (by
          obtain ⟨ch2, h1, h2⟩ := hlast
          exact ⟨ch2, by simpa using h1, h2⟩)
      simp [List.takeWhile_cons, List.dropWhile_cons, hp, ih.1, ih.2]

lemma patternAt_ground (inner rest3 : List Char) (hne : inner ≠ []) (hnb : '}' ∉ inner) :
    patternAt ('{' :: '{' :: (inner ++ '}' :: '}' :: rest3)) 0 (inner.length + 2) := by
  have hlen : 0 < inner.length := List.length_pos.mpr hne
  refine ⟨rfl, rfl, by omega, ?_, ?_, ?_⟩
  · intro m hm1 hm2
    obtain ⟨m', rfl⟩ : ∃ m', m = m' + 2 := ⟨m - 2, by omega⟩
    have hm' : m' < inner.length := by omega
    have e : ('{' :: '{' :: (inner ++ '}' :: '}' :: rest3)).get? (m' + 2) =
        (inner ++ '}' :: '}' :: rest3).get? m' := rfl
    obtain ⟨ch, hch⟩ : ∃ ch, inner.get? m' = some ch := by
      cases hc : inner.get? m' with
      | none => rw [List.get?_eq_none] at hc; omega
      | some ch => exact ⟨ch, rfl⟩
    rw [e, List.get?_append hm', hch]
    refine ⟨?_, by simp⟩
    intro hcon
    injection hcon with hc2
    exact hnb (hc2 ▸ List.get?_mem hch)
  · have e : ('{' :: '{' :: (inner ++ '}' :: '}' :: rest3)).get? (inner.length + 2) =
        (inner ++ '}' :: '}' :: rest3).get? inner.length := rfl
    rw [e, List.get?_append_right le_rfl, Nat.sub_self]
    rfl
  · have e : ('{' :: '{' :: (inner ++ '}' :: '}' :: rest3)).get? (inner.length + 3) =
        (inner ++ '}' :: '}' :: rest3).get? (inner.length + 1) := rfl
    rw [e, List.get?_append_right (by omega),
      show inner.length + 1 - inner.length = 1 by omega]
    rfl

lemma innerAt_ground (inner rest3 : List Char) :
    innerAt ('{' :: '{' :: (inner ++ '}' :: '}' :: rest3)) 0 (inner.length + 2) = inner := by
  show (inner ++ '}' :: '}' :: rest3).take (inner.length + 2 - (0 + 2)) = inner
  rw [show inner.length + 2 - (0 + 2) = inner.length by omega]
  exact List.take_left inner _

lemma patternAt_lift_ground (inner rest3 : List Char) (i' j' : Nat) :
    patternAt ('{' :: '{' :: (inner ++ '}' :: '}' :: rest3))
        (inner.length + 4 + i') (inner.length + 4 + j') ↔ patternAt rest3 i' j' := by
  have hs : '{' :: '{' :: (inner ++ '}' :: '}' :: rest3) =
      ('{' :: '{' :: (inner ++ ['}', '}'])) ++ rest3 := by simp
  have hlen : ('{' :: '{' :: (inner ++ ['}', '}'])).length = inner.length + 4 := by simp
  rw [hs, ← hlen, patternAt_append_shift]

lemma innerAt_lift_ground (inner rest3 : List Char) (i' j' : Nat) :
    innerAt ('{' :: '{' :: (inner ++ '}' :: '}' :: rest3))
        (inner.length + 4 + i') (inner.length + 4 + j') = innerAt rest3 i' j' := by
  have hs : '{' :: '{' :: (inner ++ '}' :: '}' :: rest3) =
      ('{' :: '{' :: (inner ++ ['}', '}'])) ++ rest3 := by simp
  have hlen : ('{' :: '{' :: (inner ++ ['}', '}'])).length = inner.length + 4 := by simp
  rw [hs, ← hlen, innerAt_append_shift]

lemma patternAt_classify {inner rest3 : List Char} (hnb : '}' ∉ inner) {i j : Nat}
    (hp : patternAt ('{' :: '{' :: (inner ++ '}' :: '}' :: rest3)) i j) :
    (j = inner.length + 2 ∧ i + 2 ≤ inner.length + 2) ∨
    (inner.length + 4 ≤ i ∧
      patternAt rest3 (i - (inner.length + 4)) (j - (inner.length + 4))) := by
  have gJ : ('{' :: '{' :: (inner ++ '}' :: '}' :: rest3)).get? (inner.length + 2) =
      some '}' := by
    have e : ('{' :: '{' :: (inner ++ '}' :: '}' :: rest3)).get? (inner.length + 2) =
        (inner ++ '}' :: '}' :: rest3).get? inner.length := rfl
    rw [e, List.get?_append_right le_rfl, Nat.sub_self]
    rfl
  have gJ1 : ('{' :: '{' :: (inner ++ '}' :: '}' :: rest3)).get? (inner.length + 3) =
      some '}' := by
    have e : ('{' :: '{' :: (inner ++ '}' :: '}' :: rest3)).get? (inner.length + 3) =
        (inner ++ '}' :: '}' :: rest3).get? (inner.length + 1) := rfl
    rw [e, List.get?_append_right (by omega),
      show inner.length + 1 - inner.length = 1 by omega]
    rfl
  have hcopy := hp
  obtain ⟨h1, h2, h3, h4, h5, h6⟩ := hcopy
  rcases Nat.lt_or_ge i (inner.length + 4) with hi | hi
  · left
    have hij : i + 2 ≤ inner.length + 2 := by
      by_contra hc
      push_neg at hc
      have hcases : i = inner.length + 1 ∨ i = inner.length + 2 ∨ i = inner.length + 3 := by
        omega
      rcases hcases with hc1 | hc1 | hc1
      · rw [hc1] at h2
        rw [show inner.length + 1 + 1 = inner.length + 2 by omega] at h2
        have := gJ.symm.trans h2
        simp at this
      · rw [hc1] at h1
        have := gJ.symm.trans h1
        simp at this
      · rw [hc1] at h1
        have := gJ1.symm.trans h1
        simp at this
    refine ⟨?_, hij⟩
    rcases Nat.lt_trichotomy j (inner.length + 2) with hj | hj | hj
    · exfalso
      obtain ⟨m', rfl⟩ : ∃ m', j = m' + 2 := ⟨j - 2, by omega⟩
      have e : ('{' :: '{' :: (inner ++ '}' :: '}' :: rest3)).get? (m' + 2) =
          (inner ++ '}' :: '}' :: rest3).get? m' := rfl
      rw [e, List.get?_append (by omega)] at h5
      exact hnb ((List.get?_mem h5))
    · exact hj
    · exfalso
      exact (h4 (inner.length + 2) hj (by omega)).1 gJ
  · right
    refine ⟨hi, ?_⟩
    obtain ⟨i', rfl⟩ : ∃ i', i = inner.length + 4 + i' := ⟨i - (inner.length + 4), by omega⟩
    obtain ⟨j', rfl⟩ : ∃ j', j = inner.length + 4 + j' := ⟨j - (inner.length + 4), by omega⟩
    simp only [Nat.add_sub_cancel_left]
    exact (patternAt_lift_ground inner rest3 i' j').mp hp

/-- On a string beginning with a complete match, the maximal matches are the
leading one plus the shifted maximal matches of the remainder after it. -/
lemma selected_ground_iff {inner ys : List Char} (hne : inner ≠ []) (hnb : '}' ∉ inner)
    (w : List Char) :
    (∃ i j, selectedAt ('{' :: '{' :: (inner ++ '}' :: '}' :: ys)) i j ∧
        innerAt ('{' :: '{' :: (inner ++ '}' :: '}' :: ys)) i j = w) ↔
      (w = inner ∨ ∃ i j, selectedAt ys i j ∧ innerAt ys i j = w) := by
  constructor
  · rintro ⟨i, j, ⟨hp, hmax⟩, hw⟩
    rcases patternAt_classify hnb hp with ⟨hj, hij⟩ | ⟨hige, hp3⟩
    · left
      have hi0 : i = 0 := by
        by_contra hi0
        exact hmax 0 (by omega) (by rw [hj]; exact patternAt_ground inner ys hne hnb)
      subst hi0
      subst hj
      exact hw.symm.trans (innerAt_ground inner ys)
    · right
      obtain ⟨i', rfl⟩ : ∃ i', i = inner.length + 4 + i' :=
        ⟨i - (inner.length + 4), by omega⟩
      have hjge : inner.length + 4 ≤ j := by
        have := (patternAt_lt hp).1
        omega
      obtain ⟨j', rfl⟩ : ∃ j', j = inner.length + 4 + j' :=
        ⟨j - (inner.length + 4), by omega⟩
      simp only [Nat.add_sub_cancel_left] at hp3
      refine ⟨i', j', ⟨hp3, ?_⟩, by rw [← innerAt_lift_ground inner ys i' j']; exact hw⟩
      intro i₀ hi₀ hp₀
      exact hmax (inner.length + 4 + i₀) (by omega)
        ((patternAt_lift_ground inner ys i₀ j').mpr hp₀)
  · rintro (rfl | ⟨i', j', ⟨hp', hmax'⟩, hw'⟩)
    · exact ⟨0, w.length + 2,
        ⟨patternAt_ground w ys hne hnb, fun i' hi' _ => absurd hi' (Nat.not_lt_zero i')⟩,
        innerAt_ground w ys⟩
    · refine ⟨inner.length + 4 + i', inner.length + 4 + j',
        ⟨(patternAt_lift_ground inner ys i' j').mpr hp', ?_⟩,
        by rw [innerAt_lift_ground]; exact hw'⟩
      intro i'' hi'' hp''
      rcases patternAt_classify hnb hp'' with ⟨hj, _⟩ | ⟨hige, hp3⟩
      · have := (patternAt_lt hp').1
        omega
      · rw [show inner.length + 4 + j' - (inner.length + 4) = j' by omega] at hp3
        exact hmax' _ (by omega) hp3

/-- When the anchored match at the start of the scan fails, there is no
pattern match at position zero. -/
lemma not_patternAt_zero_of_fail {rest2 : List Char}
    (hfail : ¬ (rest2.takeWhile (fun d => d ≠ '}') ≠ [] ∧
      (rest2.dropWhile (fun d => d ≠ '}')).get? 0 = some '}' ∧
      (rest2.dropWhile (fun d => d ≠ '}')).get? 1 = some '}')) :
    ∀ j, ¬ patternAt ('{' :: '{' :: rest2) 0 j := by
  intro j hp
  obtain ⟨h1, h2, h3, h4, h5, h6⟩ := hp
  have h4' : ∀ m, m < j - 2 → ∃ ch, rest2.get? m = some ch ∧
      ((fun d => d ≠ '}') : Char → Bool) ch = true := by
    intro m hm
    have hc := h4 (m + 2) (by omega) (by omega)
    have e : ('{' :: '{' :: rest2).get? (m + 2) = rest2.get? m := rfl
    rw [e] at hc
    cases hr : rest2.get? m with
    | none => exact absurd hr hc.2
    | some ch =>
      refine ⟨ch, rfl, ?_⟩
      have hch : ch ≠ '}' := by
        intro hcc
        exact hc.1 (by rw [hr, hcc])
      simpa using hch
  have h5' : rest2.get? (j - 2) = some '}' := by
    have e : ('{' :: '{' :: rest2).get? (j - 2 + 2) = rest2.get? (j - 2) := rfl
    rw [show j - 2 + 2 = j by omega] at e
    rw [e] at h5
    exact h5
  have h6' : rest2.get? (j - 1) = some '}' := by
    have e : ('{' :: '{' :: rest2).get? (j - 1 + 2) = rest2.get? (j - 1) := rfl
    rw [show j - 1 + 2 = j + 1 by omega] at e
    rw [e] at h6
    exact h6
  obtain ⟨htw, hdw⟩ := takeWhile_eq_take_of (fun d => d ≠ '}') rest2 (j - 2) h4'
    ⟨'}', h5', by simp⟩
  apply hfail
  refine ⟨?_, ?_, ?_⟩
  · rw [htw]
    intro hnil
    rcases List.take_eq_nil_iff.mp hnil with hz | hz
    · omega
    · rw [hz] at h5'
      simp at h5'
  · rw [hdw, List.get?_drop]
    rw [show j - 2 + 0 = j - 2 by omega]
    exact h5'
  · rw [hdw, List.get?_drop]
    rw [show j - 2 + 1 = j - 1 by omega]
    exact h6'

lemma findMatchesAux_iff :
    ∀ (fuel : Nat) (s : List Char), s.length ≤ fuel → ∀ w,
      (w ∈ findMatchesAux s fuel ↔ ∃ i j, selectedAt s i j ∧ innerAt s i j = w)
  | 0, s, hle, w => by
    have hs : s = [] := List.length_eq_zero.mp (Nat.le_zero.mp hle)
    subst hs
    simp only [findMatchesAux, List.not_mem_nil, false_iff]
    rintro ⟨i, j, ⟨hp, _⟩, _⟩
    exact patternAt_nil i j hp
  | fuel + 1, [], _, w => by
    simp only [findMatchesAux, List.not_mem_nil, false_iff]
    rintro ⟨i, j, ⟨hp, _⟩, _⟩
    exact patternAt_nil i j hp
  | fuel + 1, [c], _, w => by
    simp only [findMatchesAux, List.not_mem_nil, false_iff]
    rintro ⟨i, j, ⟨hp, _⟩, _⟩
    exact patternAt_single c i j hp
  | fuel + 1, c1 :: c2 :: rest2, hle, w => by
    simp only [List.length_cons] at hle
    by_cases hbr : c1 = '{' ∧ c2 = '{'
    · obtain ⟨rfl, rfl⟩ := hbr
      by_cases hm : rest2.takeWhile (fun d => d ≠ '}') ≠ [] ∧
          (rest2.dropWhile (fun d => d ≠ '}')).get? 0 = some '}' ∧
          (rest2.dropWhile (fun d => d ≠ '}')).get? 1 = some '}'
      · obtain ⟨hmne, hg0, hg1⟩ := hm
        obtain ⟨ys, hys⟩ : ∃ ys, rest2.dropWhile (fun d => d ≠ '}') = '}' :: '}' :: ys := by
          cases ha : rest2.dropWhile (fun d => d ≠ '}') with
          | nil => rw [ha] at hg0; simp at hg0
          | cons x xs =>
            rw [ha] at hg0 hg1
            simp only [List.get?_cons_zero, Option.some.injEq] at hg0
            subst hg0
            cases xs with
            | nil => simp at hg1
            | cons y ys =>
              simp only [List.get?_cons_succ, List.get?_cons_zero, Option.some.injEq] at hg1
              subst hg1
              exact ⟨ys, rfl⟩
        have hred : findMatchesAux ('{' :: '{' :: rest2) (fuel + 1) =
            if rest2.takeWhile (fun d => d ≠ '}') ≠ [] ∧
                (rest2.dropWhile (fun d => d ≠ '}')).get? 0 = some '}' ∧
                (rest2.dropWhile (fun d => d ≠ '}')).get? 1 = some '}' then
              rest2.takeWhile (fun d => d ≠ '}') ::
                findMatchesAux ((rest2.dropWhile (fun d => d ≠ '}')).drop 2) fuel
            else findMatchesAux ('{' :: rest2) fuel := rfl
        have hunfold : findMatchesAux ('{' :: '{' :: rest2) (fuel + 1) =
            rest2.takeWhile (fun d => d ≠ '}') :: findMatchesAux ys fuel := by
          rw [hred, if_pos ⟨hmne, hg0, hg1⟩, hys]
          rfl
        rw [hunfold]
        set inner := rest2.takeWhile (fun d => d ≠ '}') with hinner
        have hrest2 : rest2 = inner ++ '}' :: '}' :: ys := by
          conv_lhs => rw [← List.takeWhile_append_dropWhile (fun d => d ≠ '}') rest2]
          rw [hys, ← hinner]
        have hnb : '}' ∉ inner := by
          intro hmem
          have := List.mem_takeWhile_imp hmem
          simp at this
        have hlys : ys.length ≤ fuel := by
          have hlen : rest2.length = inner.length + (2 + ys.length) := by
            rw [hrest2]
            simp only [List.length_append, List.length_cons]
            omega
          omega
        rw [hrest2]
        rw [List.mem_cons, findMatchesAux_iff fuel ys hlys w,
          selected_ground_iff hmne hnb w]
      · have hred : findMatchesAux ('{' :: '{' :: rest2) (fuel + 1) =
            if rest2.takeWhile (fun d => d ≠ '}') ≠ [] ∧
                (rest2.dropWhile (fun d => d ≠ '}')).get? 0 = some '}' ∧
                (rest2.dropWhile (fun d => d ≠ '}')).get? 1 = some '}' then
              rest2.takeWhile (fun d => d ≠ '}') ::
                findMatchesAux ((rest2.dropWhile (fun d => d ≠ '}')).drop 2) fuel
            else findMatchesAux ('{' :: rest2) fuel := rfl
        have hunfold : findMatchesAux ('{' :: '{' :: rest2) (fuel + 1) =
            findMatchesAux ('{' :: rest2) fuel := by
          rw [hred, if_neg hm]
        rw [hunfold]
        rw [findMatchesAux_iff fuel ('{' :: rest2) (by simp only [List.length_cons]; omega) w]
        exact (selected_tail_iff (not_patternAt_zero_of_fail hm) w).symm
    · have hred : findMatchesAux (c1 :: c2 :: rest2) (fuel + 1) =
          if c1 = '{' ∧ c2 = '{' then
            if rest2.takeWhile (fun d => d ≠ '}') ≠ [] ∧
                (rest2.dropWhile (fun d => d ≠ '}')).get? 0 = some '}' ∧
                (rest2.dropWhile (fun d => d ≠ '}')).get? 1 = some '}' then
              rest2.takeWhile (fun d => d ≠ '}') ::
                findMatchesAux ((rest2.dropWhile (fun d => d ≠ '}')).drop 2) fuel
            else findMatchesAux (c2 :: rest2) fuel
          else findMatchesAux (c2 :: rest2) fuel := rfl
      have hunfold : findMatchesAux (c1 :: c2 :: rest2) (fuel + 1) =
          findMatchesAux (c2 :: rest2) fuel := by
        rw [hred, if_neg hbr]
      rw [hunfold]
      rw [findMatchesAux_iff fuel (c2 :: rest2) (by simp only [List.length_cons]; omega) w]
      refine (selected_tail_iff ?_ w).symm
      apply not_patternAt_zero
      rintro ⟨ha, hb⟩
      apply hbr
      constructor
      · simpa using ha
      · simpa using hb

/-- The matches found by the scan are exactly the inner texts of the
maximal pattern matches. -/
lemma findMatches_iff (s w : List Char) :
    w ∈ findMatches s ↔ ∃ i j, selectedAt s i j ∧ innerAt s i j = w :=
  findMatchesAux_iff s.length s le_rfl w

/-- Claim C1: a name belongs to the extracted set exactly when some match
of the placeholder pattern (two open braces, a nonempty run of characters
other than a close brace, two close braces, taken maximally: no earlier
start reaches the same closing braces) has inner text stripping to that
name.  Extraction returns exactly the set of distinct stripped inner
texts of the pattern matches. -/
theorem extract_variables_iff (s n : List Char) :
    n ∈ extract_variables s ↔
      ∃ i j, patternAt s i j ∧ (∀ i', i' < i → ¬ patternAt s i' j) ∧
        pyStrip (innerAt s i j) = n := by
  unfold extract_variables
  rw [List.mem_toFinset, List.mem_map]
  constructor
  · rintro ⟨w, hw, rfl⟩
    obtain ⟨i, j, ⟨hp, hmax⟩, hwin⟩ := (findMatches_iff s w).mp hw
    exact ⟨i, j, hp, hmax, by rw [hwin]⟩
  · rintro ⟨i, j, hp, hmax, hstrip⟩
    exact ⟨innerAt s i j, (findMatches_iff s _).mpr ⟨i, j, ⟨hp, hmax⟩, rfl⟩, hstrip⟩

/-- Claim C8: malformed or unmatched markers produce no match and no
error: a string in which no position carries a pattern match (in
particular one whose only double open brace has no later double close
brace, or one with no placeholder substring at all) extracts to the empty
set, and conversely every extracted name arises from a genuine pattern
match in the string. -/
theorem extract_variables_malformed :
    (∀ s : List Char,
      (∀ i, i < s.length → ∀ j, j < s.length → ¬ patternAt s i j) →
      extract_variables s = ∅) ∧
    (∀ s n : List Char, n ∈ extract_variables s →
      ∃ i j, patternAt s i j ∧ pyStrip (innerAt s i j) = n) := by
  constructor
  · intro s hno
    rw [Finset.eq_empty_iff_forall_not_mem]
    intro n hn
    unfold extract_variables at hn
    rw [List.mem_toFinset, List.mem_map] at hn
    obtain ⟨w, hw, _⟩ := hn
    obtain ⟨i, j, ⟨hp, _⟩, _⟩ := (findMatches_iff s w).mp hw
    have hb := patternAt_lt hp
    exact hno i (by omega) j (by omega) hp
  · intro s n hn
    unfold extract_variables at hn
    rw [List.mem_toFinset, List.mem_map] at hn
    obtain ⟨w, hw, hws⟩ := hn
    obtain ⟨i, j, ⟨hp, _⟩, hwin⟩ := (findMatches_iff s w).mp hw
    exact ⟨i, j, hp, by rw [hwin, hws]⟩

/-- Witness for claim C8: a body with an unmatched double open brace and no
subsequent double close brace extracts to the empty set, and on a body with
one well-formed placeholder the extracted name does arise from a pattern
match. -/
theorem extract_variables_malformed_witness :
    extract_variables ("Hi ".data ++ '{' :: '{' :: "name".data) = ∅ ∧
    ∃ i j, patternAt ("a ".data ++ mkPlaceholder ['x']) i j ∧
      pyStrip (innerAt ("a ".data ++ mkPlaceholder ['x']) i j) = ['x'] :=
  ⟨extract_variables_malformed.1 _ (by decide),
   extract_variables_malformed.2 _ ['x'] (by decide)⟩
